import Mathlib

/-!
Shallow embedding of the Weighted Distributional Statistics & Policy-Impact
Inference core of the FederalBudgetAnalysis repository, together with proofs
and refutations of its specified properties.

Floating-point arithmetic of the source is idealized as exact rational (ℚ)
arithmetic, with real square roots (ℝ) where the source calls sqrt.  Division
by zero is the Lean total-function convention x / 0 = 0; every place where the
source guards a division (or where NaN propagation feeds a comparison that
comes out False) is embedded with the same guard so the observable result
agrees with the source.
-/

/-! ## Generic list helpers -/

/-- Inclusive running sums, as produced by numpy cumsum / pandas cumsum. -/
def cumsum : List ℚ → List ℚ
  | [] => []
  | a :: l => a :: (cumsum l).map (a + ·)

theorem cumsum_length (l : List ℚ) : (cumsum l).length = l.length := by
  induction l with
  | nil => rfl
  | cons a l ih => simp [cumsum, ih]

theorem cumsum_mem_bounds {l : List ℚ} (hpos : ∀ w ∈ l, 0 < w) :
    ∀ x ∈ cumsum l, 0 < x ∧ x ≤ l.sum := by
  induction l with
  | nil => intro x hx; simp [cumsum] at hx
  | cons a l ih =>
    intro x hx
    have ha : 0 < a := hpos a (by simp)
    have hpos' : ∀ w ∈ l, 0 < w := fun w hw => hpos w (by simp [hw])
    have hsum : 0 ≤ l.sum := by
      apply List.sum_nonneg
      intro w hw; exact le_of_lt (hpos' w hw)
    simp only [cumsum, List.mem_cons, List.mem_map] at hx
    rcases hx with rfl | ⟨c, hc, rfl⟩
    · constructor
      · exact ha
      · simp; linarith
    · obtain ⟨hc0, hcle⟩ := ih hpos' c hc
      constructor
      · linarith
      · simp; linarith

theorem cumsum_mem_le_sum {l : List ℚ} (hnn : ∀ w ∈ l, 0 ≤ w) :
    ∀ x ∈ cumsum l, x ≤ l.sum := by
  induction l with
  | nil => intro x hx; simp [cumsum] at hx
  | cons a l ih =>
    intro x hx
    have ha : 0 ≤ a := hnn a (by simp)
    have hnn' : ∀ w ∈ l, 0 ≤ w := fun w hw => hnn w (by simp [hw])
    have hsum : 0 ≤ l.sum := List.sum_nonneg hnn'
    simp only [cumsum, List.mem_cons, List.mem_map] at hx
    rcases hx with rfl | ⟨c, hc, rfl⟩
    · simp; linarith
    · have := ih hnn' c hc
      simp; linarith

theorem cumsum_mem_nonneg {l : List ℚ} (hnn : ∀ w ∈ l, 0 ≤ w) :
    ∀ x ∈ cumsum l, 0 ≤ x := by
  induction l with
  | nil => intro x hx; simp [cumsum] at hx
  | cons a l ih =>
    intro x hx
    have ha : 0 ≤ a := hnn a (by simp)
    have hnn' : ∀ w ∈ l, 0 ≤ w := fun w hw => hnn w (by simp [hw])
    simp only [cumsum, List.mem_cons, List.mem_map] at hx
    rcases hx with rfl | ⟨c, hc, rfl⟩
    · exact ha
    · have := ih hnn' c hc; linarith

/-! ## A. Weighted distributional statistics

Embedded from `acquire_cps_asec.py` (compute_quintile_stats,
compute_income_shares, compute_state_level_stats) and
`run_robustness_checks.py` (test_bootstrap_ci's per-replicate statistics).
An observation is a pair (value, weight). -/

/-- Rows kept by the source before any distributional statistic:
`valid = df[df[weight_col] > 0]`. -/
def keptRows (l : List (ℚ × ℚ)) : List (ℚ × ℚ) :=
  l.filter (fun p => 0 < p.2)

/-- Sort ascending by value, ties kept in input order (the stable-sort
ordering the pipeline relies on for its cumulative-fraction ranking). -/
def sortByValue (l : List (ℚ × ℚ)) : List (ℚ × ℚ) :=
  l.insertionSort (fun a b => a.1 ≤ b.1)

/-- Total of the sampling weights (`total_weight = valid[weight_col].sum()`). -/
def totalWeight (l : List (ℚ × ℚ)) : ℚ := (l.map (·.2)).sum

/-- Weighted total of the values (`total = np.sum(inc * w)`). -/
def totalValue (l : List (ℚ × ℚ)) : ℚ := (l.map (fun p => p.1 * p.2)).sum

/-- Each kept observation paired with its inclusive cumulative weight after
sorting by value (`cum_weight = valid[weight_col].cumsum()`). -/
def rankedPairs (l : List (ℚ × ℚ)) : List ((ℚ × ℚ) × ℚ) :=
  (sortByValue (keptRows l)).zip (cumsum ((sortByValue (keptRows l)).map (·.2)))

/-- Summand list of the discretized-Lorenz accumulation
`np.sum(cum_inc / total_inc * wts_sorted / total_w)` over the value-sorted
sample (shared by test_bootstrap_ci and compute_state_level_stats). -/
def giniSum (l : List (ℚ × ℚ)) : ℚ :=
  let s := sortByValue l
  let ci := cumsum (s.map (fun p => p.1 * p.2))
  (((ci.zip (s.map (·.2)))).map
    (fun p => p.1 / totalValue l * (p.2 / totalWeight l))).sum

/-- Weighted Gini of test_bootstrap_ci / compute_state_level_stats:
`gini = 1 - 2 * np.sum(cum_inc / total_inc * wts_sorted / total_w)` computed
when both totals are positive, with the source's fallback of `0` otherwise. -/
def weightedGini (l : List (ℚ × ℚ)) : ℚ :=
  if 0 < totalValue l ∧ 0 < totalWeight l then 1 - 2 * giniSum l else 0

/-- Lower edge of bucket `q` of the cumulative-fraction cut
`bins = [0, 0.2, 0.4, 0.6, 0.8, 1.0]`. -/
def binLo (q : Fin 5) : ℚ := (q.val : ℚ) / 5

/-- Upper edge of bucket `q` of the cut. -/
def binHi (q : Fin 5) : ℚ := ((q.val : ℚ) + 1) / 5

/-- Membership of a cumulative fraction `c` in bucket `q`, as assigned by
`pd.cut(..., bins, include_lowest=True)`: intervals are open below and closed
above, with the first interval additionally closed at 0. -/
def inBucket (q : Fin 5) (c : ℚ) : Bool :=
  (if q.val = 0 then decide (0 ≤ c) else decide (binLo q < c)) && decide (c ≤ binHi q)

/-- Income share of quintile `q` in percent: weighted value captured by the
observations whose cumulative weight fraction falls in bucket `q`, divided by
the total weighted value (compute_quintile_stats bucket assignment combined
with the share arithmetic of compute_income_shares). -/
def quintileShare (l : List (ℚ × ℚ)) (q : Fin 5) : ℚ :=
  100 * (((rankedPairs l).filter
      (fun p => inBucket q (p.2 / totalWeight (keptRows l)))).map
        (fun p => p.1.1 * p.1.2)).sum / totalValue (keptRows l)

/-- Bottom-50% income share of compute_income_shares: observations with
cumulative weight fraction at most one half, share in percent, computed only
when the weighted total is positive (`if total <= 0: continue`). -/
def bottom50Share (l : List (ℚ × ℚ)) : ℚ :=
  if 0 < totalValue (keptRows l) then
    100 * (((rankedPairs l).filter
        (fun p => decide (p.2 / totalWeight (keptRows l) ≤ 1/2))).map
          (fun p => p.1.1 * p.1.2)).sum / totalValue (keptRows l)
  else 0

/-! ### Lemmas about the Lorenz accumulation -/

theorem sum_map_div (l : List ℚ) (k : ℚ) :
    (l.map (fun x => x / k)).sum = l.sum / k := by
  induction l with
  | nil => simp
  | cons a l ih => simp [ih, add_div]

theorem lorenz_terms_pos (xs : List ℚ) :
    ∀ (ws : List ℚ) (T Wd : ℚ), xs.length = ws.length →
    (∀ x ∈ xs, 0 ≤ x) → (∀ w ∈ ws, 0 < w) → 0 < T → 0 < Wd → 0 < xs.sum →
    0 < (((cumsum xs).zip ws).map (fun p => p.1 / T * (p.2 / Wd))).sum := by
  induction xs with
  | nil => intro ws T Wd _ _ _ _ _ hsum; simp at hsum
  | cons x xs ih =>
    intro ws T Wd hlen hxs hws hT hWd hsum
    match ws with
    | [] => simp at hlen
    | w :: ws =>
      have hx : 0 ≤ x := hxs x (by simp)
      have hw : 0 < w := hws w (by simp)
      have hxs' : ∀ a ∈ xs, 0 ≤ a := fun a ha => hxs a (by simp [ha])
      have hws' : ∀ a ∈ ws, 0 < a := fun a ha => hws a (by simp [ha])
      have hlen' : xs.length = ws.length := by simpa using hlen
      simp only [cumsum, List.zip_cons_cons, List.map_cons, List.sum_cons,
        List.zip_map_left, List.map_map]
      have hrest_nonneg :
          0 ≤ (((cumsum xs).zip ws).map
            ((fun p => p.1 / T * (p.2 / Wd)) ∘ Prod.map (x + ·) id)).sum := by
        apply List.sum_nonneg
        intro t ht
        simp only [List.mem_map] at ht
        obtain ⟨p, hp, rfl⟩ := ht
        obtain ⟨hc, hw'⟩ := List.of_mem_zip (Prod.mk.eta (p := p) ▸ hp)
        have hc0 : 0 ≤ p.1 := cumsum_mem_nonneg hxs' p.1 hc
        have hw0 : 0 < p.2 := hws' p.2 hw'
        have : 0 ≤ x + p.1 := by linarith
        simp only [Function.comp, Prod.map, id]
        positivity
      rcases lt_or_eq_of_le hx with hx0 | hx0
      · have hfirst : 0 < x / T * (w / Wd) := by positivity
        linarith
      · have hx0 : x = 0 := hx0.symm
        subst hx0
        have hsum' : 0 < xs.sum := by simpa using hsum
        have := ih ws T Wd hlen' hxs' hws' hT hWd hsum'
        have hcong :
            (((cumsum xs).zip ws).map
              ((fun p => p.1 / T * (p.2 / Wd)) ∘ Prod.map ((0:ℚ) + ·) id)).sum
            = (((cumsum xs).zip ws).map (fun p => p.1 / T * (p.2 / Wd))).sum := by
          apply congrArg
          apply List.map_congr_left
          intro a _
          simp [Prod.map]
        rw [hcong]
        simpa using this

theorem lorenz_terms_le_one (xs ws : List ℚ) (hlen : xs.length = ws.length)
    (hxs : ∀ x ∈ xs, 0 ≤ x) (hws : ∀ w ∈ ws, 0 < w) (hW : 0 < ws.sum) :
    (((cumsum xs).zip ws).map (fun p => p.1 / xs.sum * (p.2 / ws.sum))).sum ≤ 1 := by
  have hstep :
      (((cumsum xs).zip ws).map (fun p => p.1 / xs.sum * (p.2 / ws.sum))).sum
      ≤ (((cumsum xs).zip ws).map (fun p => p.2 / ws.sum)).sum := by
    apply List.sum_le_sum
    intro p hp
    obtain ⟨hc, hw'⟩ := List.of_mem_zip (Prod.mk.eta (p := p) ▸ hp)
    have hcle : p.1 ≤ xs.sum := cumsum_mem_le_sum hxs p.1 hc
    have hwpos : 0 < p.2 := hws p.2 hw'
    have h1 : p.1 / xs.sum ≤ 1 := by
      rcases lt_or_le 0 xs.sum with hs | hs
      · exact (div_le_one hs).mpr hcle
      · have hxsum : 0 ≤ xs.sum := List.sum_nonneg hxs
        have : xs.sum = 0 := le_antisymm hs hxsum
        simp [this]
    have h2 : 0 ≤ p.2 / ws.sum := by positivity
    exact mul_le_of_le_one_left h2 h1
  have hsnd : ((cumsum xs).zip ws).map (fun p => p.2 / ws.sum)
      = ws.map (fun w => w / ws.sum) := by
    have : ((cumsum xs).zip ws).map (fun p => p.2 / ws.sum)
        = (((cumsum xs).zip ws).map Prod.snd).map (fun w => w / ws.sum) := by
      simp [List.map_map, Function.comp]
    rw [this, List.map_snd_zip]
    rw [cumsum_length]; omega
  calc (((cumsum xs).zip ws).map (fun p => p.1 / xs.sum * (p.2 / ws.sum))).sum
      ≤ (((cumsum xs).zip ws).map (fun p => p.2 / ws.sum)).sum := hstep
    _ = (ws.map (fun w => w / ws.sum)).sum := by rw [hsnd]
    _ = ws.sum / ws.sum := sum_map_div ws ws.sum
    _ = 1 := div_self (ne_of_gt hW)

/-- All values of the weighted sample are non-negative. -/
def valuesNonneg (l : List (ℚ × ℚ)) : Prop := ∀ p ∈ l, 0 ≤ p.1

/-- All weights of the weighted sample are (strictly) positive. -/
def weightsPos (l : List (ℚ × ℚ)) : Prop := ∀ p ∈ l, 0 < p.2

instance (l : List (ℚ × ℚ)) : Decidable (valuesNonneg l) :=
  List.decidableBAll _ l

instance (l : List (ℚ × ℚ)) : Decidable (weightsPos l) :=
  List.decidableBAll _ l

/-- C2 (counterexample).  The claim says the weighted Gini lies in [0, 1] and
is exactly 0 when all values are equal.  On the two-observation sample with
equal values 1 and unit weights the discretized-Lorenz formula of the source
returns −1/2: negative, outside [0, 1], and not 0. -/
theorem weightedGini_equal_values_negative :
    weightedGini [(1,1),(1,1)] = -(1/2) ∧ weightedGini [(1,1),(1,1)] < 0 := by
  constructor
  · simp [weightedGini, giniSum, sortByValue, cumsum, totalValue, totalWeight,
      List.insertionSort, List.orderedInsert]
    norm_num
  · simp [weightedGini, giniSum, sortByValue, cumsum, totalValue, totalWeight,
      List.insertionSort, List.orderedInsert]
    norm_num

/-- C2 (amended).  For a weighted sample with non-negative values, positive
weights and positive weighted total, the Gini statistic computed by the
source's discretized-Lorenz formula lies in [−1, 1): it is bounded, but the
missing finite-sample correction makes the left endpoint −1, not 0, and on an
all-equal sample it returns the negative value −Σ(wᵢ/W)² instead of 0. -/
theorem weightedGini_range (l : List (ℚ × ℚ)) (hv : valuesNonneg l)
    (hw : weightsPos l) (hTI : 0 < totalValue l) :
    -1 ≤ weightedGini l ∧ weightedGini l < 1 := by
  have hne : l ≠ [] := by
    intro h; subst h; simp [totalValue] at hTI
  have hW : 0 < totalWeight l := by
    apply List.sum_pos
    · intro x hx
      simp only [List.mem_map] at hx
      obtain ⟨p, hp, rfl⟩ := hx
      exact hw p hp
    · simpa using hne
  have hperm : (sortByValue l).Perm l := List.perm_insertionSort _ l
  have hxs_sum : ((sortByValue l).map (fun p => p.1 * p.2)).sum = totalValue l :=
    (hperm.map (fun p => p.1 * p.2)).sum_eq
  have hws_sum : ((sortByValue l).map (·.2)).sum = totalWeight l :=
    (hperm.map (·.2)).sum_eq
  have hxs_nonneg : ∀ x ∈ (sortByValue l).map (fun p => p.1 * p.2), 0 ≤ x := by
    intro x hx
    simp only [List.mem_map] at hx
    obtain ⟨p, hp, rfl⟩ := hx
    have hp' : p ∈ l := hperm.mem_iff.mp hp
    exact mul_nonneg (hv p hp') (le_of_lt (hw p hp'))
  have hws_pos : ∀ w ∈ (sortByValue l).map (·.2), 0 < w := by
    intro w hwmem
    simp only [List.mem_map] at hwmem
    obtain ⟨p, hp, rfl⟩ := hwmem
    exact hw p (hperm.mem_iff.mp hp)
  have hlen : ((sortByValue l).map (fun p => p.1 * p.2)).length
      = ((sortByValue l).map (·.2)).length := by simp
  have hS_pos : 0 < giniSum l := by
    unfold giniSum
    apply lorenz_terms_pos _ _ _ _ hlen hxs_nonneg hws_pos hTI hW
    rw [hxs_sum]; exact hTI
  have hS_le : giniSum l ≤ 1 := by
    unfold giniSum
    have := lorenz_terms_le_one ((sortByValue l).map (fun p => p.1 * p.2))
      ((sortByValue l).map (·.2)) hlen hxs_nonneg hws_pos (by rw [hws_sum]; exact hW)
    rw [hxs_sum, hws_sum] at this
    exact this
  have hgini : weightedGini l = 1 - 2 * giniSum l := if_pos ⟨hTI, hW⟩
  rw [hgini]
  constructor <;> linarith

/-- C2 (witness).  The amended range theorem applied to a concrete sample. -/
theorem weightedGini_range_witness :
    valuesNonneg [(2,1),(1,3)] ∧ weightsPos [(2,1),(1,3)] ∧
      0 < totalValue [(2,1),(1,3)] ∧
      (-1 ≤ weightedGini [(2,1),(1,3)] ∧ weightedGini [(2,1),(1,3)] < 1) :=
  ⟨by decide, by decide, by norm_num [totalValue],
    weightedGini_range _ (by decide) (by decide) (by norm_num [totalValue])⟩

/-! ### Bucket partition of the unit interval -/

theorem bucket_existsUnique (c : ℚ) (h0 : 0 < c) (h1 : c ≤ 1) :
    ∃! q : Fin 5, inBucket q c = true := by
  have huniq : ∀ q₁ q₂ : Fin 5, inBucket q₁ c = true → inBucket q₂ c = true → q₁ = q₂ := by
    intro q₁ q₂ h₁ h₂
    fin_cases q₁ <;> fin_cases q₂ <;>
      simp [inBucket, binLo, binHi] at h₁ h₂ ⊢ <;> linarith
  rcases le_or_lt c (1/5) with h | h
  · exact ⟨⟨0, by omega⟩, by simp [inBucket, binHi]; constructor <;> [linarith; linarith],
      fun q hq => huniq q _ hq (by simp [inBucket, binHi]; constructor <;> linarith)⟩
  rcases le_or_lt c (2/5) with h' | h'
  · exact ⟨⟨1, by omega⟩,
      by simp [inBucket, binLo, binHi]; constructor <;> linarith,
      fun q hq => huniq q _ hq (by simp [inBucket, binLo, binHi]; constructor <;> linarith)⟩
  rcases le_or_lt c (3/5) with h'' | h''
  · exact ⟨⟨2, by omega⟩,
      by simp [inBucket, binLo, binHi]; constructor <;> linarith,
      fun q hq => huniq q _ hq (by simp [inBucket, binLo, binHi]; constructor <;> linarith)⟩
  rcases le_or_lt c (4/5) with h''' | h'''
  · exact ⟨⟨3, by omega⟩,
      by simp [inBucket, binLo, binHi]; constructor <;> linarith,
      fun q hq => huniq q _ hq (by simp [inBucket, binLo, binHi]; constructor <;> linarith)⟩
  · exact ⟨⟨4, by omega⟩,
      by simp [inBucket, binLo, binHi]; constructor <;> linarith,
      fun q hq => huniq q _ hq (by simp [inBucket, binLo, binHi]; constructor <;> linarith)⟩

theorem sum_filter_partition {α : Type} (g : α → ℚ) (f : Fin 5 → α → Bool) :
    ∀ ps : List α, (∀ p ∈ ps, ∃! q : Fin 5, f q p = true) →
    (∑ q : Fin 5, ((ps.filter (f q)).map g).sum) = (ps.map g).sum := by
  intro ps
  induction ps with
  | nil => simp
  | cons p ps ih =>
    intro h
    have hps : ∀ x ∈ ps, ∃! q : Fin 5, f q x = true :=
      fun x hx => h x (List.mem_cons_of_mem _ hx)
    obtain ⟨q₀, hq₀, huniq⟩ := h p (by simp)
    have hsplit : ∀ q : Fin 5, (((p :: ps).filter (f q)).map g).sum
        = (if f q p = true then g p else 0) + ((ps.filter (f q)).map g).sum := by
      intro q
      by_cases hq : f q p = true <;> simp [List.filter_cons, hq]
    calc (∑ q : Fin 5, (((p :: ps).filter (f q)).map g).sum)
        = ∑ q : Fin 5, ((if f q p = true then g p else 0)
            + ((ps.filter (f q)).map g).sum) :=
          Finset.sum_congr rfl (fun q _ => hsplit q)
      _ = (∑ q : Fin 5, if f q p = true then g p else 0)
            + ∑ q : Fin 5, ((ps.filter (f q)).map g).sum :=
          Finset.sum_add_distrib
      _ = g p + (ps.map g).sum := by
          rw [ih hps]
          congr 1
          rw [Finset.sum_eq_single q₀]
          · exact if_pos hq₀
          · intro b _ hb
            have : ¬ (f b p = true) := fun hfb => hb (huniq b hfb)
            exact if_neg this
          · intro hq; exact absurd (Finset.mem_univ q₀) hq
      _ = ((p :: ps).map g).sum := by simp

/-! ### Facts about the ranked pairs -/

theorem rankedPairs_cum_bounds (l : List (ℚ × ℚ)) (p : (ℚ × ℚ) × ℚ)
    (hp : p ∈ rankedPairs l) :
    0 < p.2 ∧ p.2 ≤ totalWeight (keptRows l) := by
  obtain ⟨_, hsnd⟩ := List.of_mem_zip (Prod.mk.eta (p := p) ▸ hp)
  have hperm : (sortByValue (keptRows l)).Perm (keptRows l) :=
    List.perm_insertionSort _ _
  have hwpos : ∀ w ∈ (sortByValue (keptRows l)).map (·.2), 0 < w := by
    intro w hw
    simp only [List.mem_map] at hw
    obtain ⟨x, hx, rfl⟩ := hw
    have hx' : x ∈ keptRows l := hperm.mem_iff.mp hx
    have := List.of_mem_filter hx'
    exact of_decide_eq_true this
  have := cumsum_mem_bounds hwpos p.2 hsnd
  have hsum : ((sortByValue (keptRows l)).map (·.2)).sum = totalWeight (keptRows l) :=
    (hperm.map (·.2)).sum_eq
  rw [hsum] at this
  exact this

theorem rankedPairs_value_sum (l : List (ℚ × ℚ)) :
    ((rankedPairs l).map (fun p => p.1.1 * p.1.2)).sum = totalValue (keptRows l) := by
  have hlen : (sortByValue (keptRows l)).length
      ≤ (cumsum ((sortByValue (keptRows l)).map (·.2))).length := by
    rw [cumsum_length]; simp
  have hmap : (rankedPairs l).map (fun p => p.1.1 * p.1.2)
      = (sortByValue (keptRows l)).map (fun p => p.1 * p.2) := by
    have : (rankedPairs l).map (fun p => p.1.1 * p.1.2)
        = ((rankedPairs l).map Prod.fst).map (fun p => p.1 * p.2) := by
      simp [List.map_map, Function.comp]
    rw [this, rankedPairs, List.map_fst_zip _ _ hlen]
  rw [hmap]
  have hperm : (sortByValue (keptRows l)).Perm (keptRows l) :=
    List.perm_insertionSort _ _
  exact (hperm.map (fun p => p.1 * p.2)).sum_eq

set_option maxHeartbeats 2000000 in
/-- C7 (confirmed).  For a weighted sample whose kept rows (positive weights)
have positive weighted total, every ranked observation falls in exactly one of
the five cumulative-fraction buckets of the cut [0,.2,.4,.6,.8,1] with upper
edges inclusive — no double counting, no gaps — and consequently the five
quintile income shares sum to exactly 100 (hence to 100 within 1e-6). -/
theorem quintileShares_partition (l : List (ℚ × ℚ)) (p : (ℚ × ℚ) × ℚ)
    (hp : p ∈ rankedPairs l) (hV : 0 < totalValue (keptRows l)) :
    (∃! q : Fin 5, inBucket q (p.2 / totalWeight (keptRows l)) = true)
    ∧ (∑ q : Fin 5, quintileShare l q) = 100
    ∧ |(∑ q : Fin 5, quintileShare l q) - 100| ≤ 1/1000000 := by
  have hne : keptRows l ≠ [] := by
    intro h
    rw [totalValue, h] at hV
    simp at hV
  have hW : 0 < totalWeight (keptRows l) := by
    apply List.sum_pos
    · intro x hx
      simp only [List.mem_map] at hx
      obtain ⟨q, hq, rfl⟩ := hx
      simp only [keptRows, List.mem_filter] at hq
      exact of_decide_eq_true hq.2
    · simpa using hne
  have hmem : ∀ x ∈ rankedPairs l,
      ∃! q : Fin 5, inBucket q (x.2 / totalWeight (keptRows l)) = true := by
    intro x hx
    obtain ⟨hx0, hxle⟩ := rankedPairs_cum_bounds l x hx
    exact bucket_existsUnique _ (div_pos hx0 hW) ((div_le_one hW).mpr hxle)
  have hpart := sum_filter_partition (fun p => p.1.1 * p.1.2)
    (fun q x => inBucket q (x.2 / totalWeight (keptRows l))) (rankedPairs l) hmem
  have hshare : ∀ q : Fin 5, quintileShare l q
      = (100 / totalValue (keptRows l))
        * (((rankedPairs l).filter
            (fun x => inBucket q (x.2 / totalWeight (keptRows l)))).map
              (fun p => p.1.1 * p.1.2)).sum := by
    intro q
    rw [quintileShare]
    ring
  have hsum100 : (∑ q : Fin 5, quintileShare l q) = 100 := by
    calc (∑ q : Fin 5, quintileShare l q)
        = ∑ q : Fin 5, (100 / totalValue (keptRows l))
            * (((rankedPairs l).filter
                (fun x => inBucket q (x.2 / totalWeight (keptRows l)))).map
                  (fun p => p.1.1 * p.1.2)).sum :=
          Finset.sum_congr rfl (fun q _ => hshare q)
      _ = (100 / totalValue (keptRows l))
            * ∑ q : Fin 5, (((rankedPairs l).filter
                (fun x => inBucket q (x.2 / totalWeight (keptRows l)))).map
                  (fun p => p.1.1 * p.1.2)).sum := by
          rw [Finset.mul_sum]
      _ = (100 / totalValue (keptRows l)) * totalValue (keptRows l) := by
          rw [hpart, rankedPairs_value_sum]
      _ = 100 := div_mul_cancel₀ _ (ne_of_gt hV)
  refine ⟨hmem p hp, hsum100, ?_⟩
  rw [hsum100]
  norm_num

set_option maxHeartbeats 2000000 in
/-- C7 (witness).  The partition-and-sum theorem at a concrete one-row
sample. -/
theorem quintileShares_partition_witness :
    ((1,1),1) ∈ rankedPairs [(1,1)] ∧ 0 < totalValue (keptRows [(1,1)]) ∧
      ((∃! q : Fin 5, inBucket q (1 / totalWeight (keptRows [(1,1)])) = true)
        ∧ (∑ q : Fin 5, quintileShare [(1,1)] q) = 100
        ∧ |(∑ q : Fin 5, quintileShare [(1,1)] q) - 100| ≤ 1/1000000) :=
  ⟨by decide, by norm_num [totalValue, keptRows],
    quintileShares_partition [(1,1)] ((1,1),1) (by decide)
      (by norm_num [totalValue, keptRows])⟩

/-- C8 (counterexample).  The claim says the weighted quantile ranking gives
the same aggregate group shares for every supply order of the observations.
Two equal-value observations with unequal weights (1 and 3) refute it: with
the lighter observation supplied first the bottom-50% share is 25%, with the
heavier one first it is 0%, because the cumulative-fraction cutoff falls
between the two tie orders. -/
theorem bottom50Share_order_dependent :
    List.Perm [((1:ℚ),(1:ℚ)),(1,3)] [((1:ℚ),(3:ℚ)),(1,1)]
    ∧ bottom50Share [(1,1),(1,3)] = 25
    ∧ bottom50Share [(1,3),(1,1)] = 0 := by
  refine ⟨by decide, ?_, ?_⟩
  · norm_num [bottom50Share, rankedPairs, sortByValue, keptRows, cumsum,
      totalWeight, totalValue, List.insertionSort, List.orderedInsert]
  · norm_num [bottom50Share, rankedPairs, sortByValue, keptRows, cumsum,
      totalWeight, totalValue, List.insertionSort, List.orderedInsert]

/-- The values of a weighted sample are pairwise distinct. -/
def valuesDistinct (l : List (ℚ × ℚ)) : Prop :=
  List.Pairwise (fun a b => a.1 ≠ b.1) l

instance (l : List (ℚ × ℚ)) : Decidable (valuesDistinct l) := by
  unfold valuesDistinct; infer_instance

/-- C8 (amended).  When the values are pairwise distinct, the weighted
quantile ranking is invariant to the order in which the observations are
supplied: the value-sorted list, the bottom-50% share, and every quintile
income share agree across any two supply orders.  (With tied values the
shares depend on the tie order, as the counterexample shows.) -/
theorem rank_perm_invariant (l₁ l₂ : List (ℚ × ℚ)) (q : Fin 5)
    (hperm : l₁.Perm l₂) (hdist : valuesDistinct l₁) :
    sortByValue (keptRows l₁) = sortByValue (keptRows l₂)
    ∧ bottom50Share l₁ = bottom50Share l₂
    ∧ quintileShare l₁ q = quintileShare l₂ q := by
  have hpermk : (keptRows l₁).Perm (keptRows l₂) := hperm.filter _
  have hdistk : List.Pairwise (fun a b : ℚ × ℚ => a.1 ≠ b.1) (keptRows l₁) :=
    List.Pairwise.sublist (List.filter_sublist l₁) hdist
  have hs : sortByValue (keptRows l₁) = sortByValue (keptRows l₂) := by
    have hps : (sortByValue (keptRows l₁)).Perm (sortByValue (keptRows l₂)) :=
      ((List.perm_insertionSort _ _).trans hpermk).trans
        (List.perm_insertionSort _ _).symm
    haveI : IsTotal (ℚ × ℚ) (fun a b : ℚ × ℚ => a.1 ≤ b.1) :=
      ⟨fun a b => le_total a.1 b.1⟩
    haveI : IsTrans (ℚ × ℚ) (fun a b : ℚ × ℚ => a.1 ≤ b.1) :=
      ⟨fun _ _ _ hab hbc => le_trans hab hbc⟩
    have hsort₁ : List.Sorted (fun a b : ℚ × ℚ => a.1 ≤ b.1)
        (sortByValue (keptRows l₁)) := List.sorted_insertionSort _ _
    have hsort₂ : List.Sorted (fun a b : ℚ × ℚ => a.1 ≤ b.1)
        (sortByValue (keptRows l₂)) := List.sorted_insertionSort _ _
    have hne₁ : List.Pairwise (fun a b : ℚ × ℚ => a.1 ≠ b.1)
        (sortByValue (keptRows l₁)) :=
      ((List.perm_insertionSort _ _).pairwise_iff (fun h => h.symm)).mpr hdistk
    have hne₂ : List.Pairwise (fun a b : ℚ × ℚ => a.1 ≠ b.1)
        (sortByValue (keptRows l₂)) := (hps.pairwise_iff (fun h => h.symm)).mp hne₁
    have hstrict₁ : List.Sorted (fun a b : ℚ × ℚ => a.1 < b.1)
        (sortByValue (keptRows l₁)) :=
      (hsort₁.and hne₁).imp (fun h => lt_of_le_of_ne h.1 h.2)
    have hstrict₂ : List.Sorted (fun a b : ℚ × ℚ => a.1 < b.1)
        (sortByValue (keptRows l₂)) :=
      (hsort₂.and hne₂).imp (fun h => lt_of_le_of_ne h.1 h.2)
    haveI : IsAntisymm (ℚ × ℚ) (fun a b : ℚ × ℚ => a.1 < b.1) :=
      ⟨fun a b hab hba => absurd (lt_trans hab hba) (lt_irrefl _)⟩
    exact List.eq_of_perm_of_sorted hps hstrict₁ hstrict₂
  have hTV : totalValue (keptRows l₁) = totalValue (keptRows l₂) :=
    (hpermk.map _).sum_eq
  have hTW : totalWeight (keptRows l₁) = totalWeight (keptRows l₂) :=
    (hpermk.map _).sum_eq
  have hRP : rankedPairs l₁ = rankedPairs l₂ := by
    rw [rankedPairs, rankedPairs, hs]
  refine ⟨hs, ?_, ?_⟩
  · rw [bottom50Share, bottom50Share, hRP, hTV, hTW]
  · rw [quintileShare, quintileShare, hRP, hTV, hTW]

/-- C8 (witness).  The order-invariance theorem at a concrete two-element
sample with distinct values. -/
theorem rank_perm_invariant_witness :
    List.Perm [((2:ℚ),(1:ℚ)),(1,1)] [((1:ℚ),(1:ℚ)),(2,1)]
    ∧ valuesDistinct [((2:ℚ),(1:ℚ)),(1,1)]
    ∧ (sortByValue (keptRows [(2,1),(1,1)]) = sortByValue (keptRows [(1,1),(2,1)])
      ∧ bottom50Share [(2,1),(1,1)] = bottom50Share [(1,1),(2,1)]
      ∧ quintileShare [(2,1),(1,1)] 0 = quintileShare [(1,1),(2,1)] 0) :=
  ⟨by decide, by decide,
    rank_perm_invariant [(2,1),(1,1)] [(1,1),(2,1)] 0 (by decide) (by decide)⟩

/-! ## B. Structural-break / trend-extrapolation tester

Embedded from `run_25year_analysis.py` (run_structural_break_tests): fit a
linear trend on the training window with scipy.stats.linregress, then score a
held-out point with the out-of-sample prediction standard error and the
guarded z-score `residual / se_pred if se_pred > 0 else 0`. -/

/-- Slope of the least-squares line of linregress over (x, y) training
points. -/
def lrSlope (pts : List (ℚ × ℚ)) : ℚ :=
  let n : ℚ := pts.length
  let xbar := (pts.map (·.1)).sum / n
  let ybar := (pts.map (·.2)).sum / n
  ((pts.map (fun p => (p.1 - xbar) * (p.2 - ybar))).sum)
    / ((pts.map (fun p => (p.1 - xbar)^2)).sum)

/-- Intercept of the least-squares line. -/
def lrIntercept (pts : List (ℚ × ℚ)) : ℚ :=
  (pts.map (·.2)).sum / (pts.length : ℚ)
    - lrSlope pts * ((pts.map (·.1)).sum / (pts.length : ℚ))

/-- Training residuals `y_pre - (slope * X_pre + intercept)`. -/
def fitResiduals (pts : List (ℚ × ℚ)) : List ℚ :=
  pts.map (fun p => p.2 - (lrSlope pts * p.1 + lrIntercept pts))

/-- Variance with delta degrees of freedom, as computed by
`np.std(a, ddof=d) ** 2`: mean of a is subtracted, the squared deviations are
divided by `len(a) - d`. -/
def npVar (a : List ℚ) (d : ℕ) : ℚ :=
  ((a.map (fun x => (x - a.sum / (a.length : ℚ))^2)).sum)
    / ((a.length : ℚ) - (d : ℚ))

/-- Squared training-fit residual standard deviation
(`np.std(y_pre - pre_predicted, ddof=2) ** 2`). -/
def seResidSq (pts : List (ℚ × ℚ)) : ℚ := npVar (fitResiduals pts) 2

/-- Training-fit residual standard deviation (ddof = 2). -/
noncomputable def seResid (pts : List (ℚ × ℚ)) : ℝ :=
  Real.sqrt (seResidSq pts)

/-- Mean of the training x values (`x_bar = np.mean(X_pre)`). -/
def xMean (pts : List (ℚ × ℚ)) : ℚ := (pts.map (·.1)).sum / (pts.length : ℚ)

/-- Sum of squared x deviations (`ss_x = np.sum((X_pre - x_bar) ** 2)`). -/
def ssX (pts : List (ℚ × ℚ)) : ℚ := (pts.map (fun p => (p.1 - xMean pts)^2)).sum

/-- The prediction-variance inflation factor
`1 + 1/n + (x_new - x_bar)^2 / ss_x`. -/
def levFactor (pts : List (ℚ × ℚ)) (xnew : ℚ) : ℚ :=
  1 + 1 / (pts.length : ℚ) + (xnew - xMean pts)^2 / ssX pts

/-- Out-of-sample prediction standard error
`se_pred = se_resid * np.sqrt(1 + 1/n + (x_new - x_bar)**2 / ss_x)`. -/
noncomputable def sePred (pts : List (ℚ × ℚ)) (xnew : ℚ) : ℝ :=
  seResid pts * Real.sqrt (levFactor pts xnew)

open Classical in
/-- Standardized deviation of the held-out point, with the source's guard:
`z = residual / se_pred if se_pred > 0 else 0`. -/
noncomputable def zScore (pts : List (ℚ × ℚ)) (xnew yact : ℚ) : ℝ :=
  if 0 < sePred pts xnew then
    ((yact : ℝ) - ((lrSlope pts * xnew + lrIntercept pts : ℚ) : ℝ)) / sePred pts xnew
  else 0

/-- C1 (counterexample).  The claim says a training window with fewer than 3
observations makes the trend-extrapolation test raise InsufficientDataError
and never yield z = 0 as a silent fallback.  On the two-observation training
window [(0,0),(1,1)] the source fits the line exactly, `np.std(resid, ddof=2)`
has a zero/zero degrees-of-freedom quotient, the guard `se_pred > 0` fails,
and the test silently returns z = 0 (no exception type of that name exists
anywhere in the repository). -/
theorem zScore_two_point_silent_zero : zScore [(0,0),(1,1)] 2 5 = 0 := by
  have hres : fitResiduals [(0,0),(1,1)] = [0, 0] := by
    norm_num [fitResiduals, lrSlope, lrIntercept]
  have hsq : seResidSq [(0,0),(1,1)] = 0 := by
    rw [seResidSq, hres]
    norm_num [npVar]
  have hse : seResid [(0,0),(1,1)] = 0 := by
    rw [seResid, hsq, Rat.cast_zero, Real.sqrt_zero]
  have hsp : sePred [(0,0),(1,1)] 2 = 0 := by
    rw [sePred, hse, zero_mul]
  rw [zScore, if_neg]
  rw [hsp]
  exact lt_irrefl 0

/-- C1 (amended).  The source never raises for degenerate trend-test inputs
(no InsufficientDataError class exists); instead the z-score expression
`residual / se_pred if se_pred > 0 else 0` silently returns 0.  Concretely,
every two-observation training window (n = 2 < 3) with distinct x values
fits exactly, makes the ddof = 2 residual deviation degenerate, and yields
z = 0 for every held-out point. -/
theorem zScore_degenerate_silent_zero (x0 y0 x1 y1 xnew yact : ℚ)
    (hne : x0 ≠ x1) :
    zScore [(x0,y0),(x1,y1)] xnew yact = 0 := by
  have hx : x1 - x0 ≠ 0 := sub_ne_zero.mpr (Ne.symm hne)
  have hD : (x0 - (x0 + x1) / 2)^2 + (x1 - (x0 + x1) / 2)^2 ≠ 0 := by
    have : (x0 - (x0 + x1) / 2)^2 + (x1 - (x0 + x1) / 2)^2 = (x1 - x0)^2 / 2 := by
      ring
    rw [this]
    positivity
  have hslope : lrSlope [(x0,y0),(x1,y1)] = (y1 - y0) / (x1 - x0) := by
    simp only [lrSlope, List.map_cons, List.map_nil, List.sum_cons, List.sum_nil,
      List.length_cons, List.length_nil]
    norm_num
    rw [div_eq_div_iff (by simpa using hD) hx]
    ring
  have hres : fitResiduals [(x0,y0),(x1,y1)] = [0, 0] := by
    simp only [fitResiduals, lrIntercept, List.map_cons, List.map_nil,
      List.sum_cons, List.sum_nil, List.length_cons, List.length_nil, hslope]
    norm_num
    constructor <;> (field_simp; ring)
  have hsq : seResidSq [(x0,y0),(x1,y1)] = 0 := by
    rw [seResidSq, hres]
    norm_num [npVar]
  have hse : seResid [(x0,y0),(x1,y1)] = 0 := by
    rw [seResid, hsq, Rat.cast_zero, Real.sqrt_zero]
  have hsp : sePred [(x0,y0),(x1,y1)] xnew = 0 := by
    rw [sePred, hse, zero_mul]
  rw [zScore, if_neg]
  rw [hsp]
  exact lt_irrefl 0

/-- C1 (witness).  The silent-fallback theorem at a concrete degenerate
two-observation input. -/
theorem zScore_degenerate_silent_zero_witness :
    (0 : ℚ) ≠ 3 ∧ zScore [(0,2),(3,7)] 10 100 = 0 :=
  ⟨by norm_num, zScore_degenerate_silent_zero 0 2 3 7 10 100 (by norm_num)⟩

/-- C3 (counterexample).  The claim says se_pred is strictly greater than the
training residual standard deviation for every training sample with n ≥ 3.
On the perfectly collinear window [(0,0),(1,1),(2,2)] the residual deviation
is 0, so se_pred = 0 · sqrt(1 + 1/n + leverage) = 0 as well: the two are
equal, not strictly ordered. -/
theorem sePred_collinear_not_greater :
    sePred [(0,0),(1,1),(2,2)] 3 = seResid [(0,0),(1,1),(2,2)]
    ∧ ¬ (seResid [(0,0),(1,1),(2,2)] < sePred [(0,0),(1,1),(2,2)] 3) := by
  have hres : fitResiduals [(0,0),(1,1),(2,2)] = [0, 0, 0] := by
    norm_num [fitResiduals, lrSlope, lrIntercept]
  have hsq : seResidSq [(0,0),(1,1),(2,2)] = 0 := by
    rw [seResidSq, hres]
    norm_num [npVar]
  have hse : seResid [(0,0),(1,1),(2,2)] = 0 := by
    rw [seResid, hsq, Rat.cast_zero, Real.sqrt_zero]
  have hsp : sePred [(0,0),(1,1),(2,2)] 3 = 0 := by
    rw [sePred, hse, zero_mul]
  rw [hse, hsp]
  exact ⟨rfl, lt_irrefl 0⟩

/-- C3 (amended).  For a training window with n ≥ 3, at least two distinct x
values (positive sum of squared x deviations) and a nonzero training residual
(positive ddof = 2 residual variance), the out-of-sample prediction standard
error is strictly greater than the training-fit residual standard deviation,
for every held-out x.  The positivity hypotheses are forced: a perfectly
collinear window gives equality at 0. -/
theorem sePred_gt_seResid (pts : List (ℚ × ℚ)) (xnew : ℚ)
    (h3 : 3 ≤ pts.length) (hss : 0 < ssX pts) (hsr : 0 < seResidSq pts) :
    seResid pts < sePred pts xnew := by
  have hn : (0:ℚ) < (pts.length : ℚ) := by
    have : 0 < pts.length := by omega
    exact_mod_cast this
  have hlev : 1 < levFactor pts xnew := by
    have h1 : 0 < 1 / (pts.length : ℚ) := by positivity
    have h2 : 0 ≤ (xnew - xMean pts)^2 / ssX pts :=
      div_nonneg (sq_nonneg _) (le_of_lt hss)
    rw [levFactor]
    linarith
  have hsePos : 0 < seResid pts := by
    rw [seResid]
    apply Real.sqrt_pos.mpr
    exact_mod_cast hsr
  have hsqrt : 1 < Real.sqrt ((levFactor pts xnew : ℚ) : ℝ) := by
    rw [Real.lt_sqrt (by norm_num : (0:ℝ) ≤ 1)]
    rw [one_pow]
    exact_mod_cast hlev
  calc seResid pts = seResid pts * 1 := (mul_one _).symm
    _ < seResid pts * Real.sqrt ((levFactor pts xnew : ℚ) : ℝ) :=
        (mul_lt_mul_left hsePos).mpr hsqrt
    _ = sePred pts xnew := rfl

/-- C3 (witness).  The strict inequality at a concrete non-collinear
three-observation window. -/
theorem sePred_gt_seResid_witness :
    3 ≤ ([((0:ℚ),(0:ℚ)),(1,0),(2,1)] : List (ℚ × ℚ)).length
    ∧ 0 < ssX [(0,0),(1,0),(2,1)]
    ∧ 0 < seResidSq [(0,0),(1,0),(2,1)]
    ∧ seResid [(0,0),(1,0),(2,1)] < sePred [(0,0),(1,0),(2,1)] 5 :=
  ⟨by norm_num, by norm_num [ssX, xMean],
    by norm_num [seResidSq, npVar, fitResiduals, lrSlope, lrIntercept],
    sePred_gt_seResid [(0,0),(1,0),(2,1)] 5 (by norm_num)
      (by norm_num [ssX, xMean])
      (by norm_num [seResidSq, npVar, fitResiduals, lrSlope, lrIntercept])⟩

/-! ## C. Interrupted-time-series estimator

Embedded from `src/analysis/policy_impact.py` (interrupted_time_series) with
the default full window (pre_periods and post_periods both None).  A series is
a list of (timestamp, value) pairs; the regressors are `time = arange(n)`,
`intervention = (index >= intervention_dt)`, and
`time_after = where(intervention, time - time[intervention.argmax()], 0)`.
The OLS coefficient vector β = (β0, β1, β2, β3) is abstract: every statement
below holds for all β, in particular for the least-squares solution. -/

/-- Index of the first observation at/after the intervention date
(`intervention.argmax()`; when no observation is post-intervention the index
is unused because the `np.where` mask is all-False). -/
def firstPostIdx (s : List (ℤ × ℚ)) (d : ℤ) : ℕ :=
  s.findIdx (fun p => decide (d ≤ p.1))

/-- Design rows (time, intervention, time_after) built by
interrupted_time_series before fitting. -/
def designRows (s : List (ℤ × ℚ)) (d : ℤ) : List (ℚ × ℚ × ℚ) :=
  s.enum.map (fun ip =>
    ((ip.1 : ℚ),
     if d ≤ ip.2.1 then 1 else 0,
     if d ≤ ip.2.1 then (ip.1 : ℚ) - (firstPostIdx s d : ℚ) else 0))

/-- Newey–West lag truncation
`max_lags = max(1, int(0.75 * (n_obs ** (1/3))))` in exact arithmetic. -/
def hacLags (n : ℕ) : ℕ :=
  max 1 (Nat.findGreatest (fun m => 64 * m^3 ≤ 27 * n) n)

/-- Prediction of the fitted model on one design row:
`β0 + β1 * time + β2 * intervention + β3 * time_after`. -/
def predictRow (β : ℚ × ℚ × ℚ × ℚ) (r : ℚ × ℚ × ℚ) : ℚ :=
  β.1 + β.2.1 * r.1 + β.2.2.1 * r.2.1 + β.2.2.2 * r.2.2

/-- Fitted series `model.fittedvalues` re-indexed by the series timestamps. -/
def fittedSeries (β : ℚ × ℚ × ℚ × ℚ) (s : List (ℤ × ℚ)) (d : ℤ) : List (ℤ × ℚ) :=
  (s.zip (designRows s d)).map (fun pr => (pr.1.1, predictRow β pr.2))

/-- Counterfactual series: the model prediction on the design matrix with the
intervention and time_after columns overwritten by 0
(`X_counter["intervention"] = 0; X_counter["time_after"] = 0`). -/
def counterfactualSeries (β : ℚ × ℚ × ℚ × ℚ) (s : List (ℤ × ℚ)) (d : ℤ) :
    List (ℤ × ℚ) :=
  (s.zip (designRows s d)).map (fun pr => (pr.1.1, predictRow β (pr.2.1, 0, 0)))

theorem designRows_length (s : List (ℤ × ℚ)) (d : ℤ) :
    (designRows s d).length = s.length := by
  simp [designRows]

theorem designRows_getElem (s : List (ℤ × ℚ)) (d : ℤ) (i : ℕ)
    (hi : i < s.length) (hid : i < (designRows s d).length) :
    (designRows s d)[i]
      = ((i : ℚ),
         if d ≤ s[i].1 then 1 else 0,
         if d ≤ s[i].1 then (i : ℚ) - (firstPostIdx s d : ℚ) else 0) := by
  simp only [designRows, List.getElem_map, List.getElem_enum]

theorem firstPostIdx_le (s : List (ℤ × ℚ)) (d : ℤ) (i : ℕ) (hi : i < s.length)
    (hd : d ≤ s[i].1) : firstPostIdx s d ≤ i := by
  by_contra hlt
  push_neg at hlt
  rw [firstPostIdx] at hlt
  have := List.not_of_lt_findIdx hlt
  simp only [decide_eq_false_iff_not] at this
  exact this hd

theorem hacLags_key (n m : ℕ) :
    (64 * m^3 ≤ 27 * n) ↔ ((m : ℝ) ≤ (3/4 : ℝ) * (n : ℝ) ^ ((1:ℝ)/3)) := by
  have hc0 : (0:ℝ) ≤ (n : ℝ) ^ ((1:ℝ)/3) :=
    Real.rpow_nonneg (Nat.cast_nonneg n) _
  have hc3 : ((n : ℝ) ^ ((1:ℝ)/3)) ^ (3:ℕ) = (n : ℝ) := by
    rw [← Real.rpow_natCast ((n : ℝ) ^ ((1:ℝ)/3)) 3,
      ← Real.rpow_mul (Nat.cast_nonneg n)]
    norm_num
  have h27 : (3 * ((n : ℝ) ^ ((1:ℝ)/3))) ^ (3:ℕ) = 27 * (n:ℝ) := by
    rw [mul_pow, hc3]
    norm_num
  constructor
  · intro h
    have hR : (64:ℝ) * (m:ℝ)^3 ≤ 27 * (n:ℝ) := by exact_mod_cast h
    have h4 : (4 * (m:ℝ)) ≤ 3 * ((n : ℝ) ^ ((1:ℝ)/3)) := by
      have hpow : (4 * (m:ℝ)) ^ (3:ℕ) ≤ (3 * ((n : ℝ) ^ ((1:ℝ)/3))) ^ (3:ℕ) := by
        rw [h27]
        nlinarith [hR]
      exact le_of_pow_le_pow_left (by norm_num) (by positivity) hpow
    linarith
  · intro h
    have h4 : (4 * (m:ℝ)) ≤ 3 * ((n : ℝ) ^ ((1:ℝ)/3)) := by linarith
    have hpow : (4 * (m:ℝ)) ^ (3:ℕ) ≤ (3 * ((n : ℝ) ^ ((1:ℝ)/3))) ^ (3:ℕ) :=
      pow_le_pow_left (by positivity) h4 3
    rw [h27] at hpow
    have : (64 : ℝ) * (m:ℝ)^3 ≤ 27 * (n:ℝ) := by nlinarith [hpow]
    exact_mod_cast this

theorem hacLags_eq_floor (n : ℕ) :
    hacLags n = max 1 (Nat.floor ((3/4 : ℝ) * (n : ℝ) ^ ((1:ℝ)/3))) := by
  rw [hacLags]
  congr 1
  have hx0 : (0:ℝ) ≤ (3/4 : ℝ) * (n : ℝ) ^ ((1:ℝ)/3) := by
    have := Real.rpow_nonneg (Nat.cast_nonneg n) ((1:ℝ)/3)
    linarith
  apply le_antisymm
  · apply Nat.le_floor
    exact (hacLags_key n _).mp
      (Nat.findGreatest_spec (P := fun m => 64 * m ^ 3 ≤ 27 * n)
        (Nat.zero_le n) (by simp))
  · have hfl : Nat.floor ((3/4 : ℝ) * (n : ℝ) ^ ((1:ℝ)/3)) ≤ n := by
      apply Nat.floor_le_of_le
      rcases Nat.eq_zero_or_pos n with rfl | hn
      · simp [Real.zero_rpow (by norm_num : ((1:ℝ)/3) ≠ 0)]
      · have h1 : (1:ℝ) ≤ (n:ℝ) := by exact_mod_cast hn
        have hle : (n : ℝ) ^ ((1:ℝ)/3) ≤ (n : ℝ) ^ ((1:ℝ)) :=
          Real.rpow_le_rpow_of_exponent_le h1 (by norm_num)
        rw [Real.rpow_one] at hle
        have h0 : (0:ℝ) ≤ (n : ℝ) ^ ((1:ℝ)/3) :=
          Real.rpow_nonneg (Nat.cast_nonneg n) _
        linarith
    exact Nat.le_findGreatest (P := fun m => 64 * m ^ 3 ≤ 27 * n) hfl
      ((hacLags_key n _).mpr (Nat.floor_le hx0))

theorem designRows_getD (s : List (ℤ × ℚ)) (d : ℤ) (i : ℕ) (hi : i < s.length) :
    (designRows s d).getD i (0,0,0)
      = ((i : ℚ),
         if d ≤ (s.getD i (0,0)).1 then 1 else 0,
         if d ≤ (s.getD i (0,0)).1 then (i : ℚ) - (firstPostIdx s d : ℚ) else 0) := by
  rw [List.getD_eq_getElem _ _ (by rw [designRows_length]; exact hi),
    designRows_getElem s d i hi (by rw [designRows_length]; exact hi),
    List.getD_eq_getElem _ _ hi]

/-- C4 (confirmed).  interrupted_time_series builds exactly the claimed
regressors: the time column is 0..n−1, the intervention column is the
at/after-date indicator, the time_after column is time minus the time of the
first post-intervention observation on post rows and 0 elsewhere — never
negative and never nonzero before the intervention — and the Newey–West HAC
lag truncation passed to the fit is max(1, floor(0.75 · n^(1/3))). -/
theorem its_regressor_construction (s : List (ℤ × ℚ)) (d : ℤ) (i : ℕ)
    (hi : i < s.length) :
    (designRows s d).map (·.1) = (List.range s.length).map (fun j : ℕ => (j : ℚ))
    ∧ (designRows s d).map (·.2.1)
        = s.map (fun p => if d ≤ p.1 then (1:ℚ) else 0)
    ∧ ((designRows s d).getD i (0,0,0)).2.2
        = (if d ≤ (s.getD i (0,0)).1 then (i : ℚ) - (firstPostIdx s d : ℚ) else 0)
    ∧ 0 ≤ ((designRows s d).getD i (0,0,0)).2.2
    ∧ ((s.getD i (0,0)).1 < d → ((designRows s d).getD i (0,0,0)).2.2 = 0)
    ∧ hacLags s.length
        = max 1 (Nat.floor ((3/4 : ℝ) * (s.length : ℝ) ^ ((1:ℝ)/3))) := by
  refine ⟨?_, ?_, ?_, ?_, ?_, hacLags_eq_floor s.length⟩
  · rw [designRows, List.map_map]
    have h1 : ((fun r : ℚ × ℚ × ℚ => r.1) ∘ (fun ip : ℕ × (ℤ × ℚ) =>
        ((ip.1 : ℚ),
         (if d ≤ ip.2.1 then (1:ℚ) else 0),
         if d ≤ ip.2.1 then (ip.1 : ℚ) - (firstPostIdx s d : ℚ) else 0)))
        = (fun j : ℕ => (j : ℚ)) ∘ Prod.fst := rfl
    rw [h1, ← List.map_map, List.enum_eq_zip_range,
      List.map_fst_zip _ _ (by simp)]
  · rw [designRows, List.map_map]
    have h1 : ((fun r : ℚ × ℚ × ℚ => r.2.1) ∘ (fun ip : ℕ × (ℤ × ℚ) =>
        ((ip.1 : ℚ),
         (if d ≤ ip.2.1 then (1:ℚ) else 0),
         if d ≤ ip.2.1 then (ip.1 : ℚ) - (firstPostIdx s d : ℚ) else 0)))
        = (fun p : ℤ × ℚ => if d ≤ p.1 then (1:ℚ) else 0) ∘ Prod.snd := rfl
    rw [h1, ← List.map_map, List.enum_map_snd]
  · rw [designRows_getD s d i hi]
  · rw [designRows_getD s d i hi]
    show 0 ≤ if d ≤ (s.getD i (0,0)).1 then (i : ℚ) - (firstPostIdx s d : ℚ) else 0
    by_cases hd : d ≤ (s.getD i (0,0)).1
    · rw [if_pos hd]
      have hle : firstPostIdx s d ≤ i := by
        apply firstPostIdx_le s d i hi
        rw [List.getD_eq_getElem _ _ hi] at hd
        exact hd
      have hcast : (firstPostIdx s d : ℚ) ≤ (i : ℚ) := by exact_mod_cast hle
      linarith
    · rw [if_neg hd]
  · intro hlt
    rw [designRows_getD s d i hi]
    show (if d ≤ (s.getD i (0,0)).1 then (i : ℚ) - (firstPostIdx s d : ℚ) else 0) = 0
    rw [if_neg (not_le.mpr hlt)]

/-- C4 (witness).  The regressor-construction theorem at the concrete two
point series [(0,5),(2,7)] with intervention date 1, evaluated at index 1. -/
theorem its_regressor_construction_witness :
    1 < ([((0:ℤ),(5:ℚ)),(2,7)] : List (ℤ × ℚ)).length
    ∧ ((designRows [((0:ℤ),(5:ℚ)),(2,7)] 1).map (·.1)
        = (List.range ([((0:ℤ),(5:ℚ)),(2,7)] : List (ℤ × ℚ)).length).map
            (fun j : ℕ => (j : ℚ))
      ∧ (designRows [((0:ℤ),(5:ℚ)),(2,7)] 1).map (·.2.1)
          = ([((0:ℤ),(5:ℚ)),(2,7)] : List (ℤ × ℚ)).map
              (fun p => if (1:ℤ) ≤ p.1 then (1:ℚ) else 0)
      ∧ ((designRows [((0:ℤ),(5:ℚ)),(2,7)] 1).getD 1 (0,0,0)).2.2
          = (if (1:ℤ) ≤ (([((0:ℤ),(5:ℚ)),(2,7)] : List (ℤ × ℚ)).getD 1 (0,0)).1
             then ((1:ℕ) : ℚ) - (firstPostIdx [((0:ℤ),(5:ℚ)),(2,7)] 1 : ℚ) else 0)
      ∧ 0 ≤ ((designRows [((0:ℤ),(5:ℚ)),(2,7)] 1).getD 1 (0,0,0)).2.2
      ∧ ((([((0:ℤ),(5:ℚ)),(2,7)] : List (ℤ × ℚ)).getD 1 (0,0)).1 < 1 →
          ((designRows [((0:ℤ),(5:ℚ)),(2,7)] 1).getD 1 (0,0,0)).2.2 = 0)
      ∧ hacLags ([((0:ℤ),(5:ℚ)),(2,7)] : List (ℤ × ℚ)).length
          = max 1 (Nat.floor ((3/4 : ℝ)
              * (([((0:ℤ),(5:ℚ)),(2,7)] : List (ℤ × ℚ)).length : ℝ) ^ ((1:ℝ)/3)))) :=
  ⟨by norm_num, its_regressor_construction [((0:ℤ),(5:ℚ)),(2,7)] 1 1 (by norm_num)⟩

/-- C10 (confirmed).  For every coefficient vector β (hence for the OLS fit),
the counterfactual series equals the model prediction with the intervention
and time_after regressors zeroed at every timestamp, so it reduces to
β0 + β1·time; at every pre-intervention timestamp it coincides exactly with
the fitted value; and both the fitted and counterfactual series carry exactly
the timestamps of the input series. -/
theorem counterfactual_prediction (β : ℚ × ℚ × ℚ × ℚ) (s : List (ℤ × ℚ))
    (d : ℤ) (i : ℕ) (hi : i < s.length) :
    counterfactualSeries β s d
        = s.enum.map (fun ip => (ip.2.1, β.1 + β.2.1 * (ip.1 : ℚ)))
    ∧ (fittedSeries β s d).map (·.1) = s.map (·.1)
    ∧ (counterfactualSeries β s d).map (·.1) = s.map (·.1)
    ∧ ((s.getD i (0,0)).1 < d →
        (counterfactualSeries β s d).getD i (0,0)
          = (fittedSeries β s d).getD i (0,0)) := by
  have hlen : (s.zip (designRows s d)).length = s.length := by
    rw [List.length_zip, designRows_length, min_self]
  refine ⟨?_, ?_, ?_, ?_⟩
  · apply List.ext_getElem
    · simp [counterfactualSeries, hlen]
    · intro j h₁ h₂
      have hj : j < s.length := by
        rw [counterfactualSeries, List.length_map, hlen] at h₁
        exact h₁
      have hjz : j < (s.zip (designRows s d)).length := by rw [hlen]; exact hj
      simp only [counterfactualSeries, List.getElem_map, List.getElem_zip,
        List.getElem_enum]
      rw [designRows_getElem s d j hj (by rw [designRows_length]; exact hj)]
      simp only [predictRow]
      ring_nf
  · apply List.ext_getElem
    · simp [fittedSeries, hlen]
    · intro j h₁ h₂
      simp only [fittedSeries, List.getElem_map, List.getElem_zip]
  · apply List.ext_getElem
    · simp [counterfactualSeries, hlen]
    · intro j h₁ h₂
      simp only [counterfactualSeries, List.getElem_map, List.getElem_zip]
  · intro hlt
    have hiz : i < (s.zip (designRows s d)).length := by rw [hlen]; exact hi
    have hif : i < (fittedSeries β s d).length := by
      rw [fittedSeries, List.length_map, hlen]; exact hi
    have hic : i < (counterfactualSeries β s d).length := by
      rw [counterfactualSeries, List.length_map, hlen]; exact hi
    rw [List.getD_eq_getElem _ _ hic, List.getD_eq_getElem _ _ hif]
    simp only [counterfactualSeries, fittedSeries, List.getElem_map,
      List.getElem_zip]
    rw [designRows_getElem s d i hi (by rw [designRows_length]; exact hi)]
    rw [List.getD_eq_getElem _ _ hi] at hlt
    have hnot : ¬ d ≤ s[i].1 := not_le.mpr hlt
    simp [hnot]

/-- C10 (witness).  The counterfactual-structure theorem at the concrete
series [(0,5),(2,7)] with intervention date 1, coefficient vector
(1,2,3,4), evaluated at the pre-intervention index 0. -/
theorem counterfactual_prediction_witness :
    0 < ([((0:ℤ),(5:ℚ)),(2,7)] : List (ℤ × ℚ)).length
    ∧ (counterfactualSeries (1,2,3,4) [((0:ℤ),(5:ℚ)),(2,7)] 1
        = ([((0:ℤ),(5:ℚ)),(2,7)] : List (ℤ × ℚ)).enum.map
            (fun ip => (ip.2.1, (1:ℚ) + 2 * (ip.1 : ℚ)))
      ∧ (fittedSeries (1,2,3,4) [((0:ℤ),(5:ℚ)),(2,7)] 1).map (·.1)
          = ([((0:ℤ),(5:ℚ)),(2,7)] : List (ℤ × ℚ)).map (·.1)
      ∧ (counterfactualSeries (1,2,3,4) [((0:ℤ),(5:ℚ)),(2,7)] 1).map (·.1)
          = ([((0:ℤ),(5:ℚ)),(2,7)] : List (ℤ × ℚ)).map (·.1)
      ∧ ((([((0:ℤ),(5:ℚ)),(2,7)] : List (ℤ × ℚ)).getD 0 (0,0)).1 < 1 →
          (counterfactualSeries (1,2,3,4) [((0:ℤ),(5:ℚ)),(2,7)] 1).getD 0 (0,0)
            = (fittedSeries (1,2,3,4) [((0:ℤ),(5:ℚ)),(2,7)] 1).getD 0 (0,0))) :=
  ⟨by norm_num,
    counterfactual_prediction (1,2,3,4) [((0:ℤ),(5:ℚ)),(2,7)] 1 0 (by norm_num)⟩

/-! ## D. Cluster bootstrap variance estimator

Embedded from `run_robustness_checks.py` (test_bootstrap_ci).  An observation
carries a value, a weight and a household (cluster) key.  The key universe is
enumerated in dict-insertion order (first occurrence), exactly as
`hh_to_rows.setdefault` builds it; `rng.choice(hh_keys, size=n_hh,
replace=True)` is modelled by an abstract seed-determined index stream
`stream : ℕ → ℕ` consumed position-by-position and reduced mod the number of
keys — numpy draws positions into the key array, so with a fixed seed the
drawn keys depend on the order of the key array, not only on the key set. -/

structure BObs where
  inc : ℚ
  w : ℚ
  hh : ℕ
deriving DecidableEq

/-- First-occurrence deduplication — the order in which
`hh_to_rows.setdefault(hh, []).append(i)` inserts keys into the dict. -/
def firstKeysAux : List ℕ → List ℕ → List ℕ
  | _, [] => []
  | seen, a :: l =>
    if a ∈ seen then firstKeysAux seen l else a :: firstKeysAux (a :: seen) l

/-- The cluster-key universe `hh_keys = np.array(list(hh_row_arrays.keys()))`
in dict-insertion (first-occurrence) order. -/
def keyList (obs : List BObs) : List ℕ := firstKeysAux [] (obs.map (·.hh))

/-- Number of distinct clusters (`n_hh = len(unique_hhs)`). -/
def nClusters (obs : List BObs) : ℕ := (keyList obs).length

/-- All observations of cluster `k`, in row order
(`hh_row_arrays[k]` applied to the data arrays). -/
def rowsOf (obs : List BObs) (k : ℕ) : List BObs :=
  obs.filter (fun o => o.hh = k)

/-- Keys drawn for replicate `b`:
`boot_hh_idx = rng.choice(hh_keys, size=n_hh, replace=True)`. -/
def drawsFor (stream : ℕ → ℕ) (obs : List BObs) (b : ℕ) : List ℕ :=
  (List.range (nClusters obs)).map
    (fun j => (keyList obs).getD (stream (b * nClusters obs + j) % nClusters obs) 0)

/-- Replicate sample
`row_idx = np.concatenate([hh_row_arrays[hh] for hh in boot_hh_idx])`. -/
def replicateSample (stream : ℕ → ℕ) (obs : List BObs) (b : ℕ) : List BObs :=
  ((drawsFor stream obs b).map (rowsOf obs)).flatten

/-- The list of replicate statistic values for `B` replicates of statistic
`f`. -/
def replicateStats (stream : ℕ → ℕ) (obs : List BObs) (B : ℕ)
    (f : List BObs → ℚ) : List ℚ :=
  (List.range B).map (fun b => f (replicateSample stream obs b))

/-- Mean of a list (`np.mean`). -/
def meanQ (l : List ℚ) : ℚ := l.sum / (l.length : ℚ)

/-- Percentile with numpy's default linear interpolation
(`np.percentile(vals, q)`). -/
def percentileQ (l : List ℚ) (q : ℚ) : ℚ :=
  let s := l.insertionSort (· ≤ ·)
  let n := s.length
  if n = 0 then 0 else
    let pos := q * ((n : ℚ) - 1) / 100
    let i := Nat.floor pos
    let lo := s.getD i 0
    let hi := s.getD (min (i+1) (n-1)) 0
    lo + (pos - (i : ℚ)) * (hi - lo)

/-- Bootstrap report: mean, standard deviation (`np.std`, ddof 0) and the
2.5th/97.5th percentiles of the replicate statistics, the 95% CI. -/
noncomputable def bootstrapCI (stream : ℕ → ℕ) (B : ℕ) (f : List BObs → ℚ)
    (obs : List BObs) : ℚ × ℝ × ℚ × ℚ :=
  (meanQ (replicateStats stream obs B f),
   Real.sqrt (npVar (replicateStats stream obs B f) 0),
   percentileQ (replicateStats stream obs B f) (5/2),
   percentileQ (replicateStats stream obs B f) (195/2))

theorem firstKeysAux_mem (l : List ℕ) :
    ∀ (seen : List ℕ) (k : ℕ), k ∈ firstKeysAux seen l ↔ (k ∈ l ∧ k ∉ seen) := by
  induction l with
  | nil => intro seen k; simp [firstKeysAux]
  | cons a l ih =>
    intro seen k
    by_cases ha : a ∈ seen
    · rw [firstKeysAux, if_pos ha, ih]
      constructor
      · rintro ⟨hkl, hks⟩; exact ⟨by simp [hkl], hks⟩
      · rintro ⟨hkl, hks⟩
        rcases List.mem_cons.mp hkl with rfl | hkl
        · exact absurd ha hks
        · exact ⟨hkl, hks⟩
    · rw [firstKeysAux, if_neg ha]
      constructor
      · intro hk
        rcases List.mem_cons.mp hk with rfl | hk
        · exact ⟨by simp, ha⟩
        · obtain ⟨hkl, hks⟩ := (ih (a :: seen) k).mp hk
          refine ⟨by simp [hkl], ?_⟩
          intro hmem
          exact hks (by simp [hmem])
      · rintro ⟨hkl, hks⟩
        rcases List.mem_cons.mp hkl with rfl | hkl
        · simp
        · by_cases hka : k = a
          · subst hka; simp
          · apply List.mem_cons_of_mem
            exact (ih (a :: seen) k).mpr ⟨hkl, by simp [hka, hks]⟩

theorem firstKeysAux_nodup (l : List ℕ) :
    ∀ seen : List ℕ, (firstKeysAux seen l).Nodup := by
  induction l with
  | nil => intro seen; simp [firstKeysAux]
  | cons a l ih =>
    intro seen
    by_cases ha : a ∈ seen
    · rw [firstKeysAux, if_pos ha]; exact ih seen
    · rw [firstKeysAux, if_neg ha]
      refine List.Nodup.cons ?_ (ih (a :: seen))
      intro hmem
      obtain ⟨_, hns⟩ := (firstKeysAux_mem l (a :: seen) a).mp hmem
      exact hns (by simp)

theorem keyList_nodup (obs : List BObs) : (keyList obs).Nodup :=
  firstKeysAux_nodup _ []

theorem count_rowsOf (obs : List BObs) (k : ℕ) (o : BObs) :
    (rowsOf obs k).count o = if o.hh = k then obs.count o else 0 := by
  by_cases h : o.hh = k
  · rw [if_pos h, rowsOf]
    exact List.count_filter (by simp [h])
  · rw [if_neg h, List.count_eq_zero]
    intro hmem
    rw [rowsOf] at hmem
    have := List.of_mem_filter hmem
    exact h (by simpa using this)

theorem count_replicate (obs : List BObs) (o : BObs) :
    ∀ draws : List ℕ,
    ((draws.map (rowsOf obs)).flatten).count o = draws.count o.hh * obs.count o := by
  intro draws
  induction draws with
  | nil => simp
  | cons k draws ih =>
    rw [List.map_cons, List.flatten_cons, List.count_append, ih,
      count_rowsOf, List.count_cons]
    by_cases h : o.hh = k
    · subst h
      simp only [if_pos rfl, beq_self_eq_true, if_true]
      ring
    · have hb : (k == o.hh) = false := by
        simp
        exact fun he => h he.symm
      simp only [if_neg h, hb, Bool.false_eq_true, if_false]
      ring

theorem drawsFor_getD_mem (stream : ℕ → ℕ) (obs : List BObs) (b j : ℕ)
    (h0 : 0 < nClusters obs) (hj : j < nClusters obs) :
    (drawsFor stream obs b).getD j 0 ∈ keyList obs := by
  have hjr : j < (List.range (nClusters obs)).length := by simpa using hj
  rw [drawsFor, List.getD_eq_getElem _ _ (by simpa using hj), List.getElem_map,
    List.getElem_range]
  have hmod : stream (b * nClusters obs + j) % nClusters obs < (keyList obs).length :=
    Nat.mod_lt _ h0
  rw [List.getD_eq_getElem _ _ hmod]
  exact List.getElem_mem hmod

/-- C5 (confirmed).  Every replicate draws exactly |clusters| keys, each from
the deduplicated key universe; the replicate sample contains every
observation of a drawn cluster with multiplicity (number of times its key was
drawn) × (its multiplicity in the data) — a cluster is never partially
included — and the reported CI is the mean, standard deviation and
2.5th/97.5th percentiles of the replicate statistics. -/
theorem cluster_bootstrap_structure (stream : ℕ → ℕ) (obs : List BObs)
    (f : List BObs → ℚ) (B b j : ℕ) (o : BObs)
    (h0 : 0 < nClusters obs) (hj : j < nClusters obs) :
    (drawsFor stream obs b).length = nClusters obs
    ∧ (keyList obs).Nodup
    ∧ (drawsFor stream obs b).getD j 0 ∈ keyList obs
    ∧ (replicateSample stream obs b).count o
        = (drawsFor stream obs b).count o.hh * obs.count o
    ∧ bootstrapCI stream B f obs
        = (meanQ (replicateStats stream obs B f),
           Real.sqrt (npVar (replicateStats stream obs B f) 0),
           percentileQ (replicateStats stream obs B f) (5/2),
           percentileQ (replicateStats stream obs B f) (195/2)) :=
  ⟨by simp [drawsFor], keyList_nodup obs,
    drawsFor_getD_mem stream obs b j h0 hj,
    count_replicate obs o (drawsFor stream obs b), rfl⟩

/-- Index stream of a fixed seed that always returns position 0 (a concrete
instance of the abstract PRNG model). -/
def constStream : ℕ → ℕ := fun _ => 0

/-- The replicate statistic used in concrete instances: weighted total of the
values. -/
def sumInc : List BObs → ℚ := fun s => (s.map (·.inc)).sum

/-- C5 (witness).  The structure theorem at a concrete two-cluster sample. -/
theorem cluster_bootstrap_structure_witness :
    0 < nClusters [⟨1,1,5⟩, ⟨2,1,6⟩]
    ∧ 0 < nClusters [⟨1,1,5⟩, ⟨2,1,6⟩]
    ∧ ((drawsFor constStream [⟨1,1,5⟩, ⟨2,1,6⟩] 0).length
        = nClusters [⟨1,1,5⟩, ⟨2,1,6⟩]
      ∧ (keyList [⟨1,1,5⟩, ⟨2,1,6⟩]).Nodup
      ∧ (drawsFor constStream [⟨1,1,5⟩, ⟨2,1,6⟩] 0).getD 0 0
          ∈ keyList [⟨1,1,5⟩, ⟨2,1,6⟩]
      ∧ (replicateSample constStream [⟨1,1,5⟩, ⟨2,1,6⟩] 0).count ⟨1,1,5⟩
          = (drawsFor constStream [⟨1,1,5⟩, ⟨2,1,6⟩] 0).count
              (BObs.hh ⟨1,1,5⟩) * ([⟨1,1,5⟩, ⟨2,1,6⟩] : List BObs).count ⟨1,1,5⟩
      ∧ bootstrapCI constStream 1 sumInc [⟨1,1,5⟩, ⟨2,1,6⟩]
          = (meanQ (replicateStats constStream [⟨1,1,5⟩, ⟨2,1,6⟩] 1 sumInc),
             Real.sqrt (npVar (replicateStats constStream [⟨1,1,5⟩, ⟨2,1,6⟩] 1 sumInc) 0),
             percentileQ (replicateStats constStream [⟨1,1,5⟩, ⟨2,1,6⟩] 1 sumInc) (5/2),
             percentileQ (replicateStats constStream [⟨1,1,5⟩, ⟨2,1,6⟩] 1 sumInc) (195/2))) :=
  ⟨by decide, by decide,
    cluster_bootstrap_structure constStream [⟨1,1,5⟩, ⟨2,1,6⟩] sumInc 1 0 0
      ⟨1,1,5⟩ (by decide) (by decide)⟩

/-- Two observation lists present the same cluster universe in the same
first-occurrence order: identical key sequences and identical member rows per
key. -/
def sameClusters (obs₁ obs₂ : List BObs) : Prop :=
  keyList obs₁ = keyList obs₂
  ∧ ∀ k ∈ keyList obs₁, rowsOf obs₁ k = rowsOf obs₂ k

instance (obs₁ obs₂ : List BObs) : Decidable (sameClusters obs₁ obs₂) := by
  unfold sameClusters
  exact instDecidableAnd

/-- C6 (counterexample).  The claim says a fixed seed plus a fixed cluster
universe (key set with member observations) reproduces the interval exactly.
But `rng.choice` draws positions into the key array, and the key array is in
dict-insertion order, i.e. the order clusters first appear in the rows.  The
same two-observation universe presented in the two row orders — a permutation
of the same observations — yields different drawn keys under the same index
stream and a different reported interval. -/
theorem bootstrapCI_depends_on_order :
    List.Perm ([⟨0,1,7⟩, ⟨5,1,8⟩] : List BObs) [⟨5,1,8⟩, ⟨0,1,7⟩]
    ∧ bootstrapCI constStream 1 sumInc [⟨0,1,7⟩, ⟨5,1,8⟩]
      ≠ bootstrapCI constStream 1 sumInc [⟨5,1,8⟩, ⟨0,1,7⟩] := by
  constructor
  · exact List.Perm.swap _ _ _
  · have h1 : meanQ (replicateStats constStream [⟨0,1,7⟩, ⟨5,1,8⟩] 1 sumInc) = 0 := by
      norm_num [replicateStats, replicateSample, drawsFor, nClusters, keyList,
        firstKeysAux, rowsOf, constStream, sumInc, meanQ, List.range_succ]
    have h2 : meanQ (replicateStats constStream [⟨5,1,8⟩, ⟨0,1,7⟩] 1 sumInc) = 10 := by
      norm_num [replicateStats, replicateSample, drawsFor, nClusters, keyList,
        firstKeysAux, rowsOf, constStream, sumInc, meanQ, List.range_succ]
    intro h
    have hfst := congrArg Prod.fst h
    simp only [bootstrapCI] at hfst
    rw [h1, h2] at hfst
    norm_num at hfst

/-- C6 (amended).  The bootstrap is a deterministic function of the seed
stream and of the cluster universe presented as an ordered key sequence with
its member rows: two inputs with the same first-occurrence key sequence and
the same rows per key (even if the rows of different clusters are interleaved
differently) give the same replicate draws and the same interval.  It is NOT
a function of the seed and the key set alone: reordering the rows reorders
the key array and changes which keys the same positional draws select, as the
counterexample shows. -/
theorem bootstrapCI_deterministic (stream : ℕ → ℕ) (B : ℕ) (f : List BObs → ℚ)
    (obs₁ obs₂ : List BObs) (h : sameClusters obs₁ obs₂) :
    bootstrapCI stream B f obs₁ = bootstrapCI stream B f obs₂ := by
  obtain ⟨hk, hr⟩ := h
  have hn : nClusters obs₁ = nClusters obs₂ := by rw [nClusters, nClusters, hk]
  have hdraws : ∀ b, drawsFor stream obs₁ b = drawsFor stream obs₂ b := by
    intro b
    rw [drawsFor, drawsFor, ← hn, ← hk]
  have hdmem : ∀ b k, k ∈ drawsFor stream obs₁ b → k ∈ keyList obs₁ := by
    intro b k hkmem
    rw [drawsFor] at hkmem
    simp only [List.mem_map, List.mem_range] at hkmem
    obtain ⟨j, hj, rfl⟩ := hkmem
    have h0 : 0 < nClusters obs₁ := by omega
    have hmod : stream (b * nClusters obs₁ + j) % nClusters obs₁
        < (keyList obs₁).length := Nat.mod_lt _ h0
    rw [List.getD_eq_getElem _ _ hmod]
    exact List.getElem_mem hmod
  have hsample : ∀ b, replicateSample stream obs₁ b = replicateSample stream obs₂ b := by
    intro b
    rw [replicateSample, replicateSample, ← hdraws]
    apply congrArg List.flatten
    apply List.map_congr_left
    intro k hkmem
    exact hr k (hdmem b k hkmem)
  have hstats : replicateStats stream obs₁ B f = replicateStats stream obs₂ B f := by
    rw [replicateStats, replicateStats]
    apply List.map_congr_left
    intro b _
    rw [hsample b]
  rw [bootstrapCI, bootstrapCI, hstats]

/-- C6 (witness).  Determinism at two concrete presentations of the same
two-cluster universe with differently interleaved rows. -/
theorem bootstrapCI_deterministic_witness :
    sameClusters [⟨1,1,0⟩, ⟨5,1,1⟩, ⟨2,1,0⟩] [⟨1,1,0⟩, ⟨2,1,0⟩, ⟨5,1,1⟩]
    ∧ bootstrapCI constStream 2 sumInc [⟨1,1,0⟩, ⟨5,1,1⟩, ⟨2,1,0⟩]
      = bootstrapCI constStream 2 sumInc [⟨1,1,0⟩, ⟨2,1,0⟩, ⟨5,1,1⟩] :=
  ⟨by decide,
    bootstrapCI_deterministic constStream 2 sumInc _ _ (by decide)⟩

/-! ## E. Distributional attribution / welfare weighting

Embedded from `run_counterfactual_analysis.py`: the per-person impact of the
combine-impacts loop (`per_person = (total * 1e9) / pop if pop > 0 else 0`)
and the welfare loop of welfare_analysis (σ = 2, median reference income
31343, strata with `mean_income <= 0` skipped by `continue`). -/

structure Stratum where
  pop : ℚ
  income : ℚ
  impact : ℚ
deriving DecidableEq

/-- Per-person dollar impact with the source's silent guard:
`(total * 1e9) / pop if pop > 0 else 0`. -/
def perPersonImpact (impactB pop : ℚ) : ℚ :=
  if 0 < pop then impactB * 1000000000 / pop else 0

/-- One stratum's record of the welfare loop:
(welfare_weight, per_person_loss, welfare_equivalent_loss).  A stratum with
non-positive mean income is skipped (`if mean_income <= 0: continue`). -/
def welfareRecord (st : Stratum) : Option (ℚ × ℚ × ℚ) :=
  if st.income ≤ 0 then none
  else
    some ((31343 / st.income)^2,
          |perPersonImpact st.impact st.pop|,
          |perPersonImpact st.impact st.pop| * (31343 / st.income)^2)

/-- The collected welfare results across strata (`welfare_results.append`
inside the loop). -/
def welfareAnalysis (rows : List Stratum) : List (ℚ × ℚ × ℚ) :=
  rows.filterMap welfareRecord

/-- C9 (counterexample).  The claim says a stratum with non-positive
population or income fails with DegenerateInputError, not a silent 0 and not
silent omission.  No such exception class exists in the repository: a stratum
with income 0 is silently dropped from the output (the other stratum's
record is still produced), and a non-positive population silently yields a
per-person impact of 0. -/
theorem welfare_silent_omission :
    welfareAnalysis [⟨7, 0, 5⟩, ⟨1000000000, 31343, 5⟩] = [(1, 5, 5)]
    ∧ perPersonImpact 5 0 = 0 := by
  constructor
  · simp only [welfareAnalysis, welfareRecord, perPersonImpact, List.filterMap_cons]
    norm_num
  · simp [perPersonImpact]

/-- C9 (amended).  A stratum with non-positive income is silently omitted
from the welfare output — exactly the strata with positive income produce
records — while every positive-income stratum's record is present (one
stratum's degeneracy never aborts the others); and a non-positive population
silently yields per-person impact 0.  No DegenerateInputError (or any
exception) is raised. -/
theorem welfare_skip_guards (rows : List Stratum) (r : Stratum) (hr : r ∈ rows)
    (t p : ℚ) :
    (welfareAnalysis rows).length
        = (rows.filter (fun x => 0 < x.income)).length
    ∧ (r.income ≤ 0 → welfareRecord r = none)
    ∧ (0 < r.income →
        ((31343 / r.income)^2, |perPersonImpact r.impact r.pop|,
         |perPersonImpact r.impact r.pop| * (31343 / r.income)^2)
          ∈ welfareAnalysis rows)
    ∧ (p ≤ 0 → perPersonImpact t p = 0) := by
  have hlen : ∀ rs : List Stratum, (welfareAnalysis rs).length
      = (rs.filter (fun x => 0 < x.income)).length := by
    intro rs
    induction rs with
    | nil => rfl
    | cons a rs ih =>
      by_cases ha : a.income ≤ 0
      · have hf : ¬ 0 < a.income := not_lt.mpr ha
        simp only [welfareAnalysis, List.filterMap_cons, welfareRecord,
          if_pos ha, List.filter_cons]
        rw [if_neg (by simpa using hf)]
        exact ih
      · have hf : 0 < a.income := lt_of_not_le ha
        simp only [welfareAnalysis, List.filterMap_cons, welfareRecord,
          if_neg ha, List.filter_cons]
        rw [if_pos (by simpa using hf)]
        simp only [List.length_cons]
        rw [welfareAnalysis] at ih
        rw [ih]
  refine ⟨hlen rows, ?_, ?_, ?_⟩
  · intro hle
    rw [welfareRecord, if_pos hle]
  · intro hpos
    apply List.mem_filterMap.mpr
    exact ⟨r, hr, by rw [welfareRecord, if_neg (not_le.mpr hpos)]⟩
  · intro hp
    rw [perPersonImpact, if_neg (not_lt.mpr hp)]

/-- C9 (witness).  The guard theorem at a concrete two-stratum input, one
stratum degenerate. -/
theorem welfare_skip_guards_witness :
    (⟨1000000000, 31343, 5⟩ : Stratum) ∈
        ([⟨7, 0, 5⟩, ⟨1000000000, 31343, 5⟩] : List Stratum)
    ∧ ((welfareAnalysis [⟨7, 0, 5⟩, ⟨1000000000, 31343, 5⟩]).length
        = (([⟨7, 0, 5⟩, ⟨1000000000, 31343, 5⟩] : List Stratum).filter
            (fun x => 0 < x.income)).length
      ∧ ((⟨1000000000, 31343, 5⟩ : Stratum).income ≤ 0 →
          welfareRecord ⟨1000000000, 31343, 5⟩ = none)
      ∧ (0 < (⟨1000000000, 31343, 5⟩ : Stratum).income →
          ((31343 / (⟨1000000000, 31343, 5⟩ : Stratum).income)^2,
           |perPersonImpact (⟨1000000000, 31343, 5⟩ : Stratum).impact
              (⟨1000000000, 31343, 5⟩ : Stratum).pop|,
           |perPersonImpact (⟨1000000000, 31343, 5⟩ : Stratum).impact
              (⟨1000000000, 31343, 5⟩ : Stratum).pop|
             * (31343 / (⟨1000000000, 31343, 5⟩ : Stratum).income)^2)
            ∈ welfareAnalysis [⟨7, 0, 5⟩, ⟨1000000000, 31343, 5⟩])
      ∧ ((0:ℚ) ≤ 0 → perPersonImpact 5 0 = 0)) :=
  ⟨by decide,
    welfare_skip_guards [⟨7, 0, 5⟩, ⟨1000000000, 31343, 5⟩]
      ⟨1000000000, 31343, 5⟩ (by decide) 5 0⟩
